import Mathlib

/-!
# Shallow embedding of `chia/full_node/block_height_map.py`

The module keeps an in-memory index from block height to header hash for the
canonical chain (the path from genesis to the peak), together with a sparse
map from height to sub-epoch summary.  The durable store (`block_records`
table) holds one row per observed block — canonical or orphaned — keyed by
header hash.

Embedding choices:
* header hashes (`bytes32`) are modelled as `Nat`;
* sub-epoch summaries are modelled as `Nat` (the payload is opaque to the
  index; `SubEpochSummary.from_bytes` is a decode-or-fail black box, and we
  model the already-decoded value, so a stored summary blob is its decoded
  summary);
* heights (`uint32`) are modelled as `Nat` — no height arithmetic in the
  source can underflow or overflow (`lowest - 1` is only computed under the
  guard `lowest > target ≥ 0`);
* Python dicts are modelled as association lists with Python's insertion
  semantics: updating an existing key overwrites in place, a new key is
  appended at the end;
* a Python function that can raise (`assert` failure, `KeyError` on a dict
  lookup) is modelled as returning `Option`, with `none` for the raise.
-/

set_option autoImplicit false

namespace BlockHeightMapModel

/-- A row of the `block_records` table as read by the queries in
`block_height_map.py`: `SELECT header_hash, prev_hash, height,
sub_epoch_summary ... `, plus the `is_peak` flag used in the `WHERE`
clause of `create`. -/
structure Row where
  header_hash : Nat
  prev_hash : Nat
  height : Nat
  sub_epoch_summary : Option Nat
  is_peak : Bool
  deriving DecidableEq, Repr

/-- The `block_records` table: all stored rows, in table order. -/
abbrev Store := List Row

/-! ## Python dictionaries as association lists -/

/-- Dict lookup: `d[k]`, `none` when the key is absent (`KeyError`). -/
def dget {α : Type} : List (Nat × α) → Nat → Option α
  | [], _ => none
  | (k, v) :: rest, key => if k = key then some v else dget rest key

/-- Dict insertion `d[k] = v`: overwrite in place when the key exists,
append at the end otherwise (Python dict insertion order). -/
def dinsert {α : Type} (key : Nat) (v : α) : List (Nat × α) → List (Nat × α)
  | [] => [(key, v)]
  | (k, w) :: rest =>
    if k = key then (key, v) :: rest else (k, w) :: dinsert key v rest

/-- Dict key membership: `k in d`. -/
def dcontains {α : Type} (d : List (Nat × α)) (key : Nat) : Bool :=
  d.any (fun p => p.1 == key)

/-! ## The in-memory state of `BlockHeightMap` -/

/-- The mutable fields of the Python class `BlockHeightMap`:
`__prev_hash`, `__lowest_height`, `__height_to_hash`,
`__sub_epoch_summaries`. -/
structure BlockHeightMap where
  prev_hash : Option Nat
  lowest_height : Nat
  height_to_hash : List (Nat × Nat)
  sub_epoch_summaries : List (Nat × Nat)
  deriving DecidableEq, Repr

/-! ## Operations, translated method by method -/

/-- The range query in `_load_blocks_to`:
`SELECT ... WHERE height>=? AND height <?` with parameters
`(height, self.__lowest_height)`. -/
def query_range (store : Store) (target lowest : Nat) : List Row :=
  store.filter (fun r => decide (target ≤ r.height) && decide (r.height < lowest))

/-- One iteration of the `ordered` dict construction in `_load_blocks_to`:
`ordered[header_hash] = (height, prev_hash, sub_epoch_summary)`. -/
def orderedStep (d : List (Nat × (Nat × Nat × Option Nat))) (r : Row) :
    List (Nat × (Nat × Nat × Option Nat)) :=
  dinsert r.header_hash (r.height, r.prev_hash, r.sub_epoch_summary) d

/-- The `ordered` dict of `_load_blocks_to`: iterate over the query result
inserting `ordered[header_hash] = (height, prev_hash, sub_epoch_summary)`. -/
def buildOrdered (rows : List Row) : List (Nat × (Nat × Nat × Option Nat)) :=
  rows.foldl orderedStep []

/-- The `while self.__lowest_height > height` loop of `_load_blocks_to`,
with fuel (`_load_blocks_to` supplies `lowest_height - target`, which is
exact: each iteration decrements `lowest_height` by one).  `none` models an
uncaught exception: `KeyError` on `ordered[self.__prev_hash]` or failure of
`assert entry[0] == self.__lowest_height - 1`. -/
def load_loop (ordered : List (Nat × (Nat × Nat × Option Nat))) (target : Nat) :
    Nat → BlockHeightMap → Option BlockHeightMap
  | 0, m => if target < m.lowest_height then none else some m
  | fuel + 1, m =>
    if target < m.lowest_height then
      match m.prev_hash with
      | none => none
      | some ph =>
        match dget ordered ph with
        | none => none
        | some (hgt, pv, s) =>
          if hgt = m.lowest_height - 1 then
            load_loop ordered target fuel
              { prev_hash := some pv
                lowest_height := hgt
                height_to_hash := dinsert hgt ph m.height_to_hash
                sub_epoch_summaries :=
                  match s with
                  | some sv => dinsert hgt sv m.sub_epoch_summaries
                  | none => m.sub_epoch_summaries }
          else none
    else some m

/-- `BlockHeightMap._load_blocks_to(height)`: `none` models an uncaught
exception (`assert self.__lowest_height > height`,
`assert self.__prev_hash is not None`, or a failure inside the loop). -/
def load_blocks_to (store : Store) (target : Nat) (m : BlockHeightMap) :
    Option BlockHeightMap :=
  if target < m.lowest_height then
    match m.prev_hash with
    | none => none
    | some _ =>
      load_loop (buildOrdered (query_range store target m.lowest_height)) target
        (m.lowest_height - target) m
  else none

/-- `BlockHeightMap.create(db)`: fetch the first row with `is_peak=1`; when
none exists return the empty index, otherwise seed the maps from the peak
row and backward-load to height 0.  `none` models construction raising. -/
def create (store : Store) : Option BlockHeightMap :=
  match store.find? (fun r => r.is_peak) with
  | none =>
    some { prev_hash := none, lowest_height := 0
           height_to_hash := [], sub_epoch_summaries := [] }
  | some row =>
    load_blocks_to store 0
      { prev_hash := some row.prev_hash
        lowest_height := row.height
        height_to_hash := dinsert row.height row.header_hash []
        sub_epoch_summaries :=
          match row.sub_epoch_summary with
          | some s => dinsert row.height s []
          | none => [] }

/-- `BlockHeightMap.update_height(height, header_hash, ses)`:
`none` models failure of `assert height >= self.__lowest_height`. -/
def update_height (m : BlockHeightMap) (height header_hash : Nat)
    (ses : Option Nat) : Option BlockHeightMap :=
  if m.lowest_height ≤ height then
    some { m with
           height_to_hash := dinsert height header_hash m.height_to_hash
           sub_epoch_summaries :=
             match ses with
             | some s => dinsert height s m.sub_epoch_summaries
             | none => m.sub_epoch_summaries }
  else none

/-- `BlockHeightMap.get_hash(height)`: dict lookup; `none` models the
`KeyError` (the NotFound condition). -/
def get_hash (m : BlockHeightMap) (height : Nat) : Option Nat :=
  dget m.height_to_hash height

/-- `BlockHeightMap.contains_height(height)`. -/
def contains_height (m : BlockHeightMap) (height : Nat) : Bool :=
  if height < m.lowest_height then true
  else dcontains m.height_to_hash height

/-- `BlockHeightMap.rollback(fork_height)`: `fork_height` may be `-1`;
delete every `__sub_epoch_summaries` entry whose height is strictly greater
than `fork_height` (deleting from a Python dict preserves the order of the
remaining entries, i.e. the result is a filter). -/
def rollback (m : BlockHeightMap) (fork_height : Int) : BlockHeightMap :=
  { m with
    sub_epoch_summaries :=
      m.sub_epoch_summaries.filter (fun p => !decide ((p.1 : Int) > fork_height)) }

/-- `BlockHeightMap.get_ses(height)`: dict lookup; `none` models the
`KeyError` (the NotFound condition). -/
def get_ses (m : BlockHeightMap) (height : Nat) : Option Nat :=
  dget m.sub_epoch_summaries height

/-- `BlockHeightMap.get_ses_heights()`. -/
def get_ses_heights (m : BlockHeightMap) : List Nat :=
  (m.sub_epoch_summaries.map (fun p => p.1)).mergeSort (· ≤ ·)

/-- The value triple a row contributes to the `ordered` dict. -/
def rowEntry (r : Row) : Nat × Nat × Option Nat :=
  (r.height, r.prev_hash, r.sub_epoch_summary)

/-- The parent-chain invariant of the store over a height interval
`[lo, hi]`: `chain h` is the canonical row at height `h` — it is stored,
has height `h`, its parent pointer links to the row one height below, and
no stored row shares its header hash while carrying different data (in the
store the header hash is the primary key). -/
def chainSegment (store : Store) (chain : Nat → Row) (lo hi : Nat) : Prop :=
  (∀ h, lo ≤ h → h ≤ hi → (chain h).height = h) ∧
  (∀ h, lo < h → h ≤ hi → (chain h).prev_hash = (chain (h - 1)).header_hash) ∧
  (∀ h, lo ≤ h → h ≤ hi → chain h ∈ store) ∧
  (∀ h, lo ≤ h → h ≤ hi → ∀ r ∈ store,
      r.header_hash = (chain h).header_hash → rowEntry r = rowEntry (chain h))

/-- The sub-epoch-summary keys are among the hash keys. -/
def sesKeysSub (m : BlockHeightMap) : Prop :=
  ∀ h, (dget m.sub_epoch_summaries h).isSome = true →
    (dget m.height_to_hash h).isSome = true

/-- States reachable from construction over a fixed store by any sequence
of (successful) `update_height` and `rollback` calls. -/
inductive Reachable (store : Store) : BlockHeightMap → Prop where
  | created (m : BlockHeightMap) : create store = some m → Reachable store m
  | advanced (m m' : BlockHeightMap) (height header_hash : Nat) (ses : Option Nat) :
      Reachable store m → update_height m height header_hash ses = some m' →
      Reachable store m'
  | rolled (m : BlockHeightMap) (k : Int) :
      Reachable store m → Reachable store (rollback m k)

/-! ## Concrete data used by witnesses and counterexamples -/

/-- A store holding only the genesis block, flagged as peak. -/
def genesisRow : Row := ⟨10, 99, 0, none, true⟩

/-- The one-row store whose peak is the genesis block (height 0). -/
def genesisStore : Store := [genesisRow]

/-- A 3-block canonical chain 0→1→2 plus one orphan at height 1. -/
def wr0 : Row := ⟨10, 99, 0, some 50, false⟩

def wr1 : Row := ⟨11, 10, 1, none, false⟩

def wr2 : Row := ⟨12, 11, 2, some 52, true⟩

def worphan : Row := ⟨21, 10, 1, some 61, false⟩

def wstore : Store := [wr0, worphan, wr1, wr2]

/-- The canonical row at each height of `wstore` (constant above the peak). -/
def wchain : Nat → Row :=
  fun h => if h = 0 then wr0 else if h = 1 then wr1 else wr2

/-- The index built by `create wstore`. -/
def wmap : BlockHeightMap :=
  { prev_hash := some 99, lowest_height := 0
    height_to_hash := [(2, 12), (1, 11), (0, 10)]
    sub_epoch_summaries := [(2, 52), (0, 50)] }

/-- A 2-block chain carrying a sub-epoch summary at every height. -/
def allSesStore : Store := [⟨10, 99, 0, some 50, false⟩, ⟨11, 10, 1, some 51, true⟩]

/-- The index built by `create allSesStore`: every hash-bearing height also
carries a summary. -/
def allSesMap : BlockHeightMap :=
  { prev_hash := some 99, lowest_height := 0
    height_to_hash := [(1, 11), (0, 10)]
    sub_epoch_summaries := [(1, 51), (0, 50)] }

/-- A small in-memory state used by witnesses: heights 2 and 3 loaded,
summary at height 2. -/
def msample : BlockHeightMap :=
  { prev_hash := some 77, lowest_height := 2
    height_to_hash := [(2, 12), (3, 13)]
    sub_epoch_summaries := [(2, 52)] }

/-- The partially loaded state over `wstore` right after seeding from the
peak row (height 2 resident, pending pointer at the height-1 block). -/
def cm2 : BlockHeightMap :=
  { prev_hash := some 11, lowest_height := 2
    height_to_hash := [(2, 12)]
    sub_epoch_summaries := [(2, 52)] }

/-! ## Basic dictionary lemmas -/

theorem dget_dinsert_self {α : Type} (key : Nat) (v : α) (d : List (Nat × α)) :
    dget (dinsert key v d) key = some v := by
  induction d with
  | nil => simp [dinsert, dget]
  | cons p rest ih =>
    obtain ⟨k, w⟩ := p
    by_cases hk : k = key
    · simp [dinsert, hk, dget]
    · simp [dinsert, hk, dget, ih]

theorem dget_dinsert_ne {α : Type} (key key' : Nat) (v : α) (d : List (Nat × α))
    (h : key' ≠ key) : dget (dinsert key v d) key' = dget d key' := by
  have h' : ¬key = key' := fun hh => h hh.symm
  induction d with
  | nil => simp [dinsert, dget, h']
  | cons p rest ih =>
    obtain ⟨k, w⟩ := p
    by_cases hk : k = key
    · subst hk
      simp [dinsert, dget, h']
    · simp [dinsert, hk, dget, ih]

theorem dcontains_eq_isSome {α : Type} (d : List (Nat × α)) (key : Nat) :
    dcontains d key = (dget d key).isSome := by
  induction d with
  | nil => simp [dcontains, dget]
  | cons p rest ih =>
    obtain ⟨k, w⟩ := p
    by_cases hk : k = key
    · simp [dcontains, dget, hk]
    · simp only [dcontains, List.any_cons] at ih ⊢
      simp [dget, hk, ih]

theorem dget_filter_key {α : Type} (q : Nat → Bool) (d : List (Nat × α)) (key : Nat) :
    dget (d.filter (fun p => q p.1)) key = if q key then dget d key else none := by
  induction d with
  | nil => simp [dget]
  | cons p rest ih =>
    obtain ⟨k, w⟩ := p
    by_cases hk : k = key
    · subst hk
      by_cases hq : q k
      · simp [List.filter, hq, dget, ih]
      · simp [List.filter, hq, dget, ih]
    · by_cases hq : q k
      · simp [List.filter, hq, dget, hk, ih]
      · simp [List.filter, hq, dget, hk, ih]

/-- Looking a row's hash up in the `ordered` dict yields that row's data,
provided every row of the batch with the same hash carries the same data
(in the store the header hash is the primary key). -/
theorem dget_foldl_orderedStep (r : Row) :
    ∀ (rows : List Row) (d : List (Nat × (Nat × Nat × Option Nat))),
      (∀ r' ∈ rows, r'.header_hash = r.header_hash → rowEntry r' = rowEntry r) →
      (r ∈ rows ∨ dget d r.header_hash = some (rowEntry r)) →
      dget (rows.foldl orderedStep d) r.header_hash = some (rowEntry r) := by
  intro rows
  induction rows with
  | nil =>
    intro d _ hmem
    rcases hmem with hmem | hget
    · cases hmem
    · simpa using hget
  | cons a rest ih =>
    intro d huniq hmem
    simp only [List.foldl_cons]
    apply ih
    · intro r' hr' hh
      exact huniq r' (List.mem_cons_of_mem a hr') hh
    · rcases hmem with hmem | hget
      · rcases List.mem_cons.mp hmem with rfl | hmem'
        · right
          simpa [orderedStep, rowEntry] using
            dget_dinsert_self r.header_hash (rowEntry r) d
        · left; exact hmem'
      · by_cases hha : a.header_hash = r.header_hash
        · right
          have hae : rowEntry a = rowEntry r :=
            huniq a (List.mem_cons_self a rest) hha
          show dget (dinsert a.header_hash (rowEntry a) d) r.header_hash
              = some (rowEntry r)
          rw [hha, hae]
          exact dget_dinsert_self r.header_hash (rowEntry r) d
        · right
          show dget (dinsert a.header_hash (rowEntry a) d) r.header_hash
              = some (rowEntry r)
          rw [dget_dinsert_ne a.header_hash r.header_hash (rowEntry a) d
            (fun hh => hha hh.symm)]
          exact hget

/-- Full characterisation of the `while` loop of `_load_blocks_to` when the
store slice describes a parent-linked chain segment `chain t, ..., chain
(t+n-1)`: the loop succeeds, ends with `lowest_height = t`, records exactly
the chain's hash (and summary, when present) at each height of the segment,
and leaves every other height untouched. -/
theorem load_loop_spec (D : List (Nat × (Nat × Nat × Option Nat))) (t : Nat)
    (chain : Nat → Row) :
    ∀ (n : Nat) (m : BlockHeightMap),
      m.lowest_height = t + n →
      (0 < n → m.prev_hash = some (chain (t + n - 1)).header_hash) →
      (∀ h, t ≤ h → h < t + n → dget D (chain h).header_hash = some (rowEntry (chain h))) →
      (∀ h, t ≤ h → h < t + n → (chain h).height = h) →
      (∀ h, t < h → h < t + n → (chain h).prev_hash = (chain (h - 1)).header_hash) →
      ∃ m', load_loop D t n m = some m' ∧
        m'.lowest_height = t ∧
        (0 < n → m'.prev_hash = some (chain t).prev_hash) ∧
        (n = 0 → m' = m) ∧
        (∀ h, t ≤ h → h < t + n →
            dget m'.height_to_hash h = some (chain h).header_hash) ∧
        (∀ h, h < t ∨ t + n ≤ h →
            dget m'.height_to_hash h = dget m.height_to_hash h) ∧
        (∀ h, t ≤ h → h < t + n →
            dget m'.sub_epoch_summaries h =
              match (chain h).sub_epoch_summary with
              | some s => some s
              | none => dget m.sub_epoch_summaries h) ∧
        (∀ h, h < t ∨ t + n ≤ h →
            dget m'.sub_epoch_summaries h = dget m.sub_epoch_summaries h) := by
  intro n
  induction n with
  | zero =>
    intro m hlow _ _ _ _
    refine ⟨m, ?_, by omega, by omega, fun _ => rfl, ?_, fun _ _ => rfl, ?_, fun _ _ => rfl⟩
    · simp [load_loop, hlow]
    · intro h h1 h2; omega
    · intro h h1 h2; omega
  | succ n ih =>
    intro m hlow hprev hdict hheight hlink
    have hlt : t < m.lowest_height := by omega
    have hprev' : m.prev_hash = some (chain (t + n)).header_hash := by
      have := hprev (Nat.succ_pos n)
      simpa [Nat.add_sub_cancel] using this
    have hd : dget D (chain (t + n)).header_hash = some (rowEntry (chain (t + n))) :=
      hdict (t + n) (by omega) (by omega)
    have hht : (chain (t + n)).height = t + n := hheight (t + n) (by omega) (by omega)
    -- the state after the first loop iteration
    set m1 : BlockHeightMap :=
      { prev_hash := some (chain (t + n)).prev_hash
        lowest_height := t + n
        height_to_hash :=
          dinsert (t + n) (chain (t + n)).header_hash m.height_to_hash
        sub_epoch_summaries :=
          match (chain (t + n)).sub_epoch_summary with
          | some sv => dinsert (t + n) sv m.sub_epoch_summaries
          | none => m.sub_epoch_summaries } with hm1
    have hstep : load_loop D t (n + 1) m = load_loop D t n m1 := by
      have hck : (chain (t + n)).height = m.lowest_height - 1 := by omega
      simp only [load_loop, if_pos hlt, hprev', hd, rowEntry]
      rw [if_pos hck, hht, hm1]
    have hm1low : m1.lowest_height = t + n := rfl
    have hm1prev : 0 < n → m1.prev_hash = some (chain (t + n - 1)).header_hash := by
      intro hn
      have := hlink (t + n) (by omega) (by omega)
      simp [hm1, this]
    obtain ⟨m', hrun, hlow', hprevout, hzero, hin, hfr, hsin, hsfr⟩ :=
      ih m1 hm1low hm1prev
        (fun h h1 h2 => hdict h h1 (by omega))
        (fun h h1 h2 => hheight h h1 (by omega))
        (fun h h1 h2 => hlink h h1 (by omega))
    have hm1get : ∀ h, h ≠ t + n →
        dget m1.height_to_hash h = dget m.height_to_hash h := by
      intro h hne
      simpa [hm1] using
        dget_dinsert_ne (t + n) h (chain (t + n)).header_hash m.height_to_hash hne
    have hm1ses : ∀ h, h ≠ t + n →
        dget m1.sub_epoch_summaries h = dget m.sub_epoch_summaries h := by
      intro h hne
      cases hs : (chain (t + n)).sub_epoch_summary with
      | none => simp [hm1, hs]
      | some sv =>
        simpa [hm1, hs] using
          dget_dinsert_ne (t + n) h sv m.sub_epoch_summaries hne
    refine ⟨m', by rw [hstep]; exact hrun, hlow', ?_, by omega, ?_, ?_, ?_, ?_⟩
    · intro _
      by_cases hn : 0 < n
      · exact hprevout hn
      · have hn0 : n = 0 := by omega
        have := hzero hn0
        subst this
        simp [hm1, hn0]
    · intro h h1 h2
      by_cases hh : h = t + n
      · subst hh
        have := hfr (t + n) (Or.inr (by omega))
        rw [this]
        simpa [hm1] using
          dget_dinsert_self (t + n) (chain (t + n)).header_hash m.height_to_hash
      · have := hin h h1 (by omega)
        exact this
    · intro h hout
      have h1 : h < t ∨ t + n ≤ h := by omega
      by_cases hh : h = t + n
      · omega
      · rw [hfr h h1, hm1get h hh]
    · intro h h1 h2
      by_cases hh : h = t + n
      · subst hh
        have := hsfr (t + n) (Or.inr (by omega))
        rw [this]
        cases hs : (chain (t + n)).sub_epoch_summary with
        | none => simp [hm1, hs]
        | some sv =>
          simpa [hm1, hs] using
            dget_dinsert_self (t + n) sv m.sub_epoch_summaries
      · have := hsin h h1 (by omega)
        rw [this, hm1ses h hh]
    · intro h hout
      have h1 : h < t ∨ t + n ≤ h := by omega
      by_cases hh : h = t + n
      · omega
      · rw [hsfr h h1, hm1ses h hh]

/-- Looking up a canonical hash in the `ordered` dict built from the range
query recovers the canonical row's data. -/
theorem dget_buildOrdered_query (store : Store) (chain : Nat → Row)
    (lo hi : Nat) (hseg : chainSegment store chain lo hi)
    (t lowest : Nat) (hlo : lo ≤ t) (hhi : lowest ≤ hi + 1) :
    ∀ h, t ≤ h → h < lowest →
      dget (buildOrdered (query_range store t lowest)) (chain h).header_hash
        = some (rowEntry (chain h)) := by
  obtain ⟨hheight, _, hmem, huniq⟩ := hseg
  intro h h1 h2
  apply dget_foldl_orderedStep
  · intro r' hr' hh
    have hr's : r' ∈ store := List.mem_of_mem_filter hr'
    exact huniq h (by omega) (by omega) r' hr's hh
  · left
    apply List.mem_filter.mpr
    refine ⟨hmem h (by omega) (by omega), ?_⟩
    have := hheight h (by omega) (by omega)
    simp [this]
    omega

/-- Full characterisation of `_load_blocks_to(target)` when the store
holds a canonical chain segment from `target` up to the lowest height
loaded so far and the pending pointer is that segment's top hash:
the call succeeds, loads exactly the segment, and touches nothing else. -/
theorem load_blocks_to_spec (store : Store) (chain : Nat → Row)
    (t : Nat) (m : BlockHeightMap)
    (hlt : t < m.lowest_height)
    (hprev : m.prev_hash = some (chain (m.lowest_height - 1)).header_hash)
    (hseg : chainSegment store chain t (m.lowest_height - 1)) :
    ∃ m', load_blocks_to store t m = some m' ∧
      m'.lowest_height = t ∧
      m'.prev_hash = some (chain t).prev_hash ∧
      (∀ h, t ≤ h → h < m.lowest_height →
          dget m'.height_to_hash h = some (chain h).header_hash) ∧
      (∀ h, h < t ∨ m.lowest_height ≤ h →
          dget m'.height_to_hash h = dget m.height_to_hash h) ∧
      (∀ h, t ≤ h → h < m.lowest_height →
          dget m'.sub_epoch_summaries h =
            match (chain h).sub_epoch_summary with
            | some s => some s
            | none => dget m.sub_epoch_summaries h) ∧
      (∀ h, h < t ∨ m.lowest_height ≤ h →
          dget m'.sub_epoch_summaries h = dget m.sub_epoch_summaries h) := by
  obtain ⟨hheight, hlink, hmem, huniq⟩ := hseg
  have hdict := dget_buildOrdered_query store chain t (m.lowest_height - 1)
    ⟨hheight, hlink, hmem, huniq⟩ t m.lowest_height (le_refl t) (by omega)
  obtain ⟨m', hrun, hlow', hprevout, _, hin, hfr, hsin, hsfr⟩ :=
    load_loop_spec (buildOrdered (query_range store t m.lowest_height)) t chain
      (m.lowest_height - t) m (Nat.add_sub_cancel' hlt.le).symm
      (by
        intro _
        have he : t + (m.lowest_height - t) - 1 = m.lowest_height - 1 := by omega
        rw [hprev, he])
      (fun h h1 h2 => hdict h h1 (by omega))
      (fun h h1 h2 => hheight h h1 (by omega))
      (fun h h1 h2 => hlink h h1 (by omega))
  refine ⟨m', ?_, hlow', hprevout (by omega), ?_, ?_, ?_, ?_⟩
  · rw [load_blocks_to, if_pos hlt, hprev]
    exact hrun
  · intro h h1 h2; exact hin h h1 (by omega)
  · intro h hout; exact hfr h (by omega)
  · intro h h1 h2; exact hsin h h1 (by omega)
  · intro h hout; exact hsfr h (by omega)

/-- Full characterisation of `create` when the peak query returns the top
of a canonical chain segment `chain 0, ..., chain P` with `1 ≤ P`:
construction succeeds, `height_to_hash` holds exactly the canonical hash at
each height of `[0, P]` and nothing else, and `sub_epoch_summaries` holds
exactly the summaries recorded along that path. -/
theorem create_spec (store : Store) (chain : Nat → Row) (P : Nat)
    (HP : 1 ≤ P)
    (hpeak : store.find? (fun r => r.is_peak) = some (chain P))
    (hseg : chainSegment store chain 0 P) :
    ∃ m, create store = some m ∧
      m.lowest_height = 0 ∧
      m.prev_hash = some (chain 0).prev_hash ∧
      (∀ h, h ≤ P → dget m.height_to_hash h = some (chain h).header_hash) ∧
      (∀ h, P < h → dget m.height_to_hash h = none) ∧
      (∀ h, h ≤ P → dget m.sub_epoch_summaries h = (chain h).sub_epoch_summary) ∧
      (∀ h, P < h → dget m.sub_epoch_summaries h = none) := by
  obtain ⟨hheight, hlink, hmem, huniq⟩ := hseg
  have hPh : (chain P).height = P := hheight P (by omega) (le_refl P)
  set seed : BlockHeightMap :=
    { prev_hash := some (chain P).prev_hash
      lowest_height := P
      height_to_hash := dinsert P (chain P).header_hash []
      sub_epoch_summaries :=
        match (chain P).sub_epoch_summary with
        | some s => dinsert P s []
        | none => [] } with hseed
  have hc : create store = load_blocks_to store 0 seed := by
    simp only [create, hpeak]
    rw [hPh, hseed]
  have hseedhash : ∀ h, dget seed.height_to_hash h =
      if h = P then some (chain P).header_hash else none := by
    intro h
    by_cases hh : h = P
    · rw [hh, if_pos rfl]
      simpa [hseed] using dget_dinsert_self P (chain P).header_hash []
    · rw [if_neg hh]
      have := dget_dinsert_ne P h (chain P).header_hash [] hh
      simpa [hseed, dget] using this
  have hseedses : ∀ h, dget seed.sub_epoch_summaries h =
      if h = P then (chain P).sub_epoch_summary else none := by
    intro h
    cases hs : (chain P).sub_epoch_summary with
    | none => simp [hseed, hs, dget]
    | some s =>
      by_cases hh : h = P
      · rw [hh, if_pos rfl]
        simpa [hseed, hs] using dget_dinsert_self P s []
      · rw [if_neg hh]
        have := dget_dinsert_ne P h s [] hh
        simpa [hseed, hs, dget] using this
  have hslow : seed.lowest_height = P := rfl
  obtain ⟨m', hrun, hlow', hprev', hin, hfr, hsin, hsfr⟩ :=
    load_blocks_to_spec store chain 0 seed (by omega)
      (by
        show some (chain P).prev_hash = some (chain (seed.lowest_height - 1)).header_hash
        rw [hslow, hlink P (by omega) (le_refl P)])
      ⟨fun h h1 h2 => hheight h h1 (by omega),
       fun h h1 h2 => hlink h h1 (by omega),
       fun h h1 h2 => hmem h h1 (by omega),
       fun h h1 h2 => huniq h h1 (by omega)⟩
  refine ⟨m', by rw [hc]; exact hrun, hlow', hprev', ?_, ?_, ?_, ?_⟩
  · intro h hP
    by_cases hh : h = P
    · subst hh
      rw [hfr h (Or.inr (by omega)), hseedhash]
      simp
    · rw [hin h (by omega) (by omega)]
  · intro h hP
    rw [hfr h (Or.inr (by omega)), hseedhash, if_neg (by omega)]
  · intro h hP
    by_cases hh : h = P
    · subst hh
      rw [hsfr h (Or.inr (by omega)), hseedses]
      simp
    · rw [hsin h (by omega) (by omega), hseedses, if_neg hh]
      cases hs : (chain h).sub_epoch_summary <;> simp [hs]
  · intro h hP
    rw [hsfr h (Or.inr (by omega)), hseedses, if_neg (by omega)]

/-- Composing the summary filters of two rollbacks equals filtering at the
lower fork height. -/
theorem filter_gt_min (k1 k2 : Int) (l : List (Nat × Nat)) :
    (l.filter (fun p => !decide ((p.1 : Int) > k1))).filter
        (fun p => !decide ((p.1 : Int) > k2))
      = l.filter (fun p => !decide ((p.1 : Int) > min k1 k2)) := by
  induction l with
  | nil => rfl
  | cons a rest ih =>
    have hm : (min k1 k2 < (a.1 : Int)) ↔ (k1 < (a.1 : Int) ∨ k2 < (a.1 : Int)) :=
      min_lt_iff
    by_cases h1 : k1 < (a.1 : Int) <;> by_cases h2 : k2 < (a.1 : Int) <;>
      simp [List.filter_cons, h1, h2, hm, ih]

/-- When the peak row sits at height 0, `create` raises: `_load_blocks_to(0)`
is invoked with `lowest_height = 0` and its first assertion fails. -/
theorem create_none_of_peak_height_zero (store : Store) (row : Row)
    (hpeak : store.find? (fun r => r.is_peak) = some row) (h0 : row.height = 0) :
    create store = none := by
  simp [create, hpeak, load_blocks_to, h0]

/-- Inserting a hash at `hgt` together with (at most) a summary at `hgt`
preserves the summary-keys-are-hash-keys inclusion. -/
theorem sesKeysSub_insert (hash ses : List (Nat × Nat)) (hgt ph : Nat)
    (s : Option Nat)
    (hsub : ∀ h, (dget ses h).isSome = true → (dget hash h).isSome = true) :
    ∀ h, (dget (match s with
                | some sv => dinsert hgt sv ses
                | none => ses) h).isSome = true →
      (dget (dinsert hgt ph hash) h).isSome = true := by
  intro h hs
  by_cases hh : h = hgt
  · rw [hh, dget_dinsert_self]
    rfl
  · rw [dget_dinsert_ne hgt h ph hash hh]
    apply hsub
    cases s with
    | none => exact hs
    | some sv =>
      rw [dget_dinsert_ne hgt h sv ses hh] at hs
      exact hs

/-- The backward-load loop preserves the summary-keys inclusion. -/
theorem load_loop_sesKeysSub (D : List (Nat × (Nat × Nat × Option Nat))) (t : Nat) :
    ∀ (n : Nat) (m m' : BlockHeightMap), sesKeysSub m →
      load_loop D t n m = some m' → sesKeysSub m' := by
  intro n
  induction n with
  | zero =>
    intro m m' hsub hrun
    by_cases hlt : t < m.lowest_height
    · simp [load_loop, hlt] at hrun
    · simp [load_loop, hlt] at hrun
      exact hrun ▸ hsub
  | succ n ih =>
    intro m m' hsub hrun
    simp only [load_loop] at hrun
    split at hrun
    · split at hrun
      · cases hrun
      · split at hrun
        · cases hrun
        · split at hrun
          · exact ih _ m'
              (fun h => sesKeysSub_insert m.height_to_hash m.sub_epoch_summaries
                _ _ _ hsub h) hrun
          · cases hrun
    · injection hrun with hh
      exact hh ▸ hsub

/-- `_load_blocks_to` preserves the summary-keys inclusion. -/
theorem load_blocks_to_sesKeysSub (store : Store) (t : Nat)
    (m m' : BlockHeightMap) (hsub : sesKeysSub m)
    (hrun : load_blocks_to store t m = some m') : sesKeysSub m' := by
  by_cases hlt : t < m.lowest_height
  · rw [load_blocks_to, if_pos hlt] at hrun
    cases hp : m.prev_hash with
    | none => rw [hp] at hrun; cases hrun
    | some ph =>
      rw [hp] at hrun
      exact load_loop_sesKeysSub _ t _ m m' hsub hrun
  · rw [load_blocks_to, if_neg hlt] at hrun
    cases hrun

/-- Construction establishes the summary-keys inclusion. -/
theorem create_sesKeysSub (store : Store) (m : BlockHeightMap)
    (hrun : create store = some m) : sesKeysSub m := by
  rw [create] at hrun
  cases hpk : store.find? (fun r => r.is_peak) with
  | none =>
    rw [hpk] at hrun
    cases hrun
    intro h hs
    simp [dget] at hs
  | some row =>
    rw [hpk] at hrun
    apply load_blocks_to_sesKeysSub store 0 _ m _ hrun
    exact fun h hs =>
      sesKeysSub_insert [] [] row.height row.header_hash row.sub_epoch_summary
        (fun h2 hs2 => by simp [dget] at hs2) h hs

/-- `update_height` preserves the summary-keys inclusion. -/
theorem update_height_sesKeysSub (m m' : BlockHeightMap)
    (height header_hash : Nat) (ses : Option Nat) (hsub : sesKeysSub m)
    (hrun : update_height m height header_hash ses = some m') : sesKeysSub m' := by
  unfold update_height at hrun
  by_cases hge : m.lowest_height ≤ height
  · rw [if_pos hge] at hrun
    cases hrun
    exact fun h hs =>
      sesKeysSub_insert m.height_to_hash m.sub_epoch_summaries
        height header_hash ses hsub h hs
  · rw [if_neg hge] at hrun
    cases hrun

/-- `rollback` preserves the summary-keys inclusion. -/
theorem rollback_sesKeysSub (m : BlockHeightMap) (k : Int)
    (hsub : sesKeysSub m) : sesKeysSub (rollback m k) := by
  intro h hs
  have hs' : (dget (m.sub_epoch_summaries.filter
      (fun p => !decide ((p.1 : Int) > k))) h).isSome = true := hs
  rw [dget_filter_key (fun key => !decide ((key : Int) > k))] at hs'
  by_cases hq : (!decide ((h : Int) > k)) = true
  · rw [if_pos hq] at hs'
    exact hsub h hs'
  · rw [if_neg hq] at hs'
    cases hs'

/-- The canonical chain of the 3-block sample store satisfies the
parent-chain invariant up to its peak. -/
theorem wstore_chainSegment : chainSegment wstore wchain 0 2 := by
  refine ⟨?_, ?_, ?_, ?_⟩
  · intro h h1 h2
    interval_cases h <;> rfl
  · intro h h1 h2
    interval_cases h <;> rfl
  · intro h h1 h2
    interval_cases h <;> decide
  · intro h h1 h2
    interval_cases h <;> decide

/-- Restriction of the sample chain segment to heights `[0, 1]`. -/
theorem wstore_chainSegment01 : chainSegment wstore wchain 0 1 :=
  ⟨fun h h1 h2 => wstore_chainSegment.1 h h1 (by omega),
   fun h h1 h2 => wstore_chainSegment.2.1 h h1 (by omega),
   fun h h1 h2 => wstore_chainSegment.2.2.1 h h1 (by omega),
   fun h h1 h2 => wstore_chainSegment.2.2.2 h h1 (by omega)⟩

/-! ## Claims -/

/-- C1 counterexample: the one-row store whose peak row is the genesis
block (height 0) has a peak row and satisfies the parent-chain invariant,
yet `create` fails — it calls `_load_blocks_to(0)` with
`lowest_height = 0`, violating that function's first assertion — refuting
"for every store containing a row flagged as peak and satisfying the
parent-chain invariant, construction succeeds". -/
theorem C1_counterexample :
    (genesisStore.find? (fun r => r.is_peak) = some genesisRow) ∧
    chainSegment genesisStore (fun _ => genesisRow) 0 0 ∧
    create genesisStore = none := by
  refine ⟨rfl, ⟨?_, ?_, ?_, ?_⟩, rfl⟩
  · intro h _ h2
    interval_cases h
    rfl
  · intro h h1 h2
    omega
  · intro h _ _
    exact List.mem_singleton.mpr rfl
  · intro h _ _ r hr _
    rw [List.mem_singleton.mp hr]

/-- C1 (amended: the peak row's height is at least 1): for every store
containing a peak row of height `P ≥ 1` satisfying the parent-chain
invariant, construction succeeds, `height_to_hash` maps every height in
`[0, P]` to the unique block on the canonical path (the stored parent hash
of `get_hash h` equals `get_hash (h-1)` for `h > 0`), heights above `P`
have no entry, and `height_to_summary` contains exactly the heights at
which a summary was recorded along that path. -/
theorem C1_create_canonical_path (store : Store) (chain : Nat → Row) (P : Nat)
    (HP : 1 ≤ P)
    (hpeak : store.find? (fun r => r.is_peak) = some (chain P))
    (hseg : chainSegment store chain 0 P) :
    ∃ m, create store = some m ∧
      (∀ h, h ≤ P → get_hash m h = some (chain h).header_hash) ∧
      (∀ h, 0 < h → h ≤ P → get_hash m (h - 1) = some (chain h).prev_hash) ∧
      (∀ h, h ≤ P → get_ses m h = (chain h).sub_epoch_summary) ∧
      (∀ h, P < h → get_hash m h = none ∧ get_ses m h = none) := by
  obtain ⟨m, hc, _, _, hin, hout, hsin, hsout⟩ :=
    create_spec store chain P HP hpeak hseg
  refine ⟨m, hc, fun h hP => hin h hP, ?_, fun h hP => hsin h hP,
    fun h hP => ⟨hout h hP, hsout h hP⟩⟩
  intro h h0 hP
  have hlink := hseg.2.1 h h0 hP
  have := hin (h - 1) (by omega)
  rw [hlink]
  exact this

/-- C1 witness: the amended theorem applied to the 3-block sample store
(with an orphan at height 1). -/
theorem C1_witness :
    ((1 : Nat) ≤ 2) ∧
    (wstore.find? (fun r => r.is_peak) = some (wchain 2)) ∧
    chainSegment wstore wchain 0 2 ∧
    (∃ m, create wstore = some m ∧
      (∀ h, h ≤ 2 → get_hash m h = some (wchain h).header_hash) ∧
      (∀ h, 0 < h → h ≤ 2 → get_hash m (h - 1) = some (wchain h).prev_hash) ∧
      (∀ h, h ≤ 2 → get_ses m h = (wchain h).sub_epoch_summary) ∧
      (∀ h, 2 < h → get_hash m h = none ∧ get_ses m h = none)) :=
  ⟨by decide, by decide, wstore_chainSegment,
   C1_create_canonical_path wstore wchain 2 (by decide) (by decide)
     wstore_chainSegment⟩

/-- C2: given `target < lowest_loaded_height`, (a) when the pending pointer
is the top of a canonical chain segment reaching down to `target`, the
backward load succeeds, ends with `lowest_loaded_height = target`, records
the chain's hash (resolved by following parent pointers, never by picking
among same-height rows) at every height of `[target, old lowest)` and
leaves all other heights unchanged; (b) when the resolved parent hash is
missing from the queried range, the load fails fatally; (c) when its
recorded height is not exactly `lowest_loaded_height - 1`, the load fails
fatally. -/
theorem C2_load_blocks_to_contract (store : Store) (chain : Nat → Row)
    (t : Nat) (m : BlockHeightMap) (hlt : t < m.lowest_height) :
    ((m.prev_hash = some (chain (m.lowest_height - 1)).header_hash →
      chainSegment store chain t (m.lowest_height - 1) →
      ∃ m', load_blocks_to store t m = some m' ∧
        m'.lowest_height = t ∧
        (∀ h, t ≤ h → h < m.lowest_height →
            get_hash m' h = some (chain h).header_hash) ∧
        (∀ h, h < t ∨ m.lowest_height ≤ h →
            get_hash m' h = get_hash m h)) ∧
    (∀ ph, m.prev_hash = some ph →
      dget (buildOrdered (query_range store t m.lowest_height)) ph = none →
      load_blocks_to store t m = none) ∧
    (∀ ph hgt pv s, m.prev_hash = some ph →
      dget (buildOrdered (query_range store t m.lowest_height)) ph
        = some (hgt, pv, s) →
      hgt ≠ m.lowest_height - 1 →
      load_blocks_to store t m = none)) := by
  refine ⟨?_, ?_, ?_⟩
  · intro hprev hseg
    obtain ⟨m', h1, h2, _, h4, h5, _, _⟩ :=
      load_blocks_to_spec store chain t m hlt hprev hseg
    exact ⟨m', h1, h2, h4, h5⟩
  · intro ph hp hd
    have hf : m.lowest_height - t = (m.lowest_height - t - 1) + 1 := by omega
    rw [load_blocks_to, if_pos hlt, hp, hf]
    simp only [load_loop, if_pos hlt, hp, hd]
  · intro ph hgt pv s hp hd hne
    have hf : m.lowest_height - t = (m.lowest_height - t - 1) + 1 := by omega
    rw [load_blocks_to, if_pos hlt, hp, hf]
    simp only [load_loop, if_pos hlt, hp, hd]
    rw [if_neg hne]

/-- C2 witness: the contract applied to a partially loaded state over the
3-block sample store (peak at height 2 already loaded, pending pointer at
the height-1 block), target 0; part (a) instantiated to show the
successful load. -/
theorem C2_witness :
    ((0 : Nat) < cm2.lowest_height) ∧
    (cm2.prev_hash = some (wchain (cm2.lowest_height - 1)).header_hash) ∧
    (∃ m', load_blocks_to wstore 0 cm2 = some m' ∧
      m'.lowest_height = 0 ∧
      (∀ h, 0 ≤ h → h < 2 → get_hash m' h = some (wchain h).header_hash) ∧
      (∀ h, h < 0 ∨ 2 ≤ h → get_hash m' h = get_hash cm2 h)) :=
  ⟨by decide, by decide,
   (C2_load_blocks_to_contract wstore wchain 0 cm2 (by decide)).1 (by decide)
     wstore_chainSegment01⟩

/-- C3: after `rollback(k)`, `get_ses` fails with NotFound for every height
strictly above `k` (including `k = -1`, which clears all summaries), and is
unchanged for every height at most `k`. -/
theorem C3_rollback_get_ses (m : BlockHeightMap) (k : Int) (h : Nat) :
    ((h : Int) > k → get_ses (rollback m k) h = none) ∧
    ((h : Int) ≤ k → get_ses (rollback m k) h = get_ses m h) := by
  have hq := dget_filter_key (fun key => !decide ((key : Int) > k))
    m.sub_epoch_summaries h
  constructor
  · intro hgt
    have hdec : decide ((h : Int) > k) = true := decide_eq_true hgt
    show dget (m.sub_epoch_summaries.filter
        (fun p => !decide ((p.1 : Int) > k))) h = none
    rw [hq, if_neg]
    simp [hdec]
  · intro hle
    have hdec : decide ((h : Int) > k) = false := decide_eq_false (by omega)
    show dget (m.sub_epoch_summaries.filter
        (fun p => !decide ((p.1 : Int) > k))) h = get_ses m h
    rw [hq, if_pos]
    · rfl
    · simp [hdec]

/-- C3 witness: height 2 carries a summary in `msample`; `rollback 1`
removes it, `rollback 2` keeps it unchanged. -/
theorem C3_witness :
    get_ses (rollback msample 1) 2 = none ∧
    get_ses (rollback msample 2) 2 = get_ses msample 2 :=
  ⟨(C3_rollback_get_ses msample 1 2).1 (by decide),
   (C3_rollback_get_ses msample 2 2).2 (by decide)⟩

/-- C4: `rollback` leaves `height_to_hash`, `lowest_loaded_height` and the
pending pointer entirely unchanged, and only removes (never alters or adds)
`height_to_summary` entries. -/
theorem C4_rollback_frame (m : BlockHeightMap) (k : Int) :
    (rollback m k).height_to_hash = m.height_to_hash ∧
    (rollback m k).lowest_height = m.lowest_height ∧
    (rollback m k).prev_hash = m.prev_hash ∧
    (∀ h s, get_ses (rollback m k) h = some s → get_ses m h = some s) := by
  refine ⟨rfl, rfl, rfl, ?_⟩
  intro h s hs
  have hq := dget_filter_key (fun key => !decide ((key : Int) > k))
    m.sub_epoch_summaries h
  have hs' : dget (m.sub_epoch_summaries.filter
      (fun p => !decide ((p.1 : Int) > k))) h = some s := hs
  rw [hq] at hs'
  by_cases hc : (!decide ((h : Int) > k)) = true
  · rw [if_pos hc] at hs'
    exact hs'
  · rw [if_neg hc] at hs'
    cases hs'

/-- C4 witness: rollback at fork height 5 on `msample`. -/
theorem C4_witness :
    (rollback msample 5).height_to_hash = msample.height_to_hash ∧
    get_ses (rollback msample 5) 2 = some 52 ∧
    get_ses msample 2 = some 52 :=
  ⟨(C4_rollback_frame msample 5).1, by decide,
   (C4_rollback_frame msample 5).2.2.2 2 52 (by decide)⟩

/-- C5: `advance` (`update_height`) with `height ≥ lowest_loaded_height`
succeeds; afterwards `get_hash height` is the new hash, the summary entry
at `height` is inserted exactly when a summary is supplied, and every
other entry of both maps, `lowest_loaded_height` and the pending pointer
are unchanged. -/
theorem C5_update_height_spec (m : BlockHeightMap) (height header_hash : Nat)
    (ses : Option Nat) (hge : m.lowest_height ≤ height) :
    ∃ m', update_height m height header_hash ses = some m' ∧
      get_hash m' height = some header_hash ∧
      (∀ h, h ≠ height → get_hash m' h = get_hash m h) ∧
      (get_ses m' height = match ses with
        | some s => some s
        | none => get_ses m height) ∧
      (∀ h, h ≠ height → get_ses m' h = get_ses m h) ∧
      m'.lowest_height = m.lowest_height ∧
      m'.prev_hash = m.prev_hash := by
  refine ⟨{ m with
      height_to_hash := dinsert height header_hash m.height_to_hash
      sub_epoch_summaries :=
        match ses with
        | some s => dinsert height s m.sub_epoch_summaries
        | none => m.sub_epoch_summaries },
    ?_, ?_, ?_, ?_, ?_, rfl, rfl⟩
  · unfold update_height
    rw [if_pos hge]
  · exact dget_dinsert_self height header_hash m.height_to_hash
  · intro h hne
    exact dget_dinsert_ne height h header_hash m.height_to_hash hne
  · cases ses with
    | none => rfl
    | some s => exact dget_dinsert_self height s m.sub_epoch_summaries
  · intro h hne
    cases ses with
    | none => rfl
    | some s => exact dget_dinsert_ne height h s m.sub_epoch_summaries hne

/-- C5 witness: advancing `msample` (highest loaded height 3) to height 4
with a summary. -/
theorem C5_witness :
    (msample.lowest_height ≤ 4) ∧
    (∃ m', update_height msample 4 99 (some 7) = some m' ∧
      get_hash m' 4 = some 99 ∧
      (∀ h, h ≠ 4 → get_hash m' h = get_hash msample h) ∧
      (get_ses m' 4 = match (some 7 : Option Nat) with
        | some s => some s
        | none => get_ses msample 4) ∧
      (∀ h, h ≠ 4 → get_ses m' h = get_ses msample h) ∧
      m'.lowest_height = msample.lowest_height ∧
      m'.prev_hash = msample.prev_hash) :=
  ⟨by decide, C5_update_height_spec msample 4 99 (some 7) (by decide)⟩

/-- C6: `get_hash` reads the recorded entry of `height_to_hash` and fails
with NotFound exactly when the height has no entry there; it never returns
a value for an absent height. -/
theorem C6_get_hash_not_found (m : BlockHeightMap) (h : Nat) :
    get_hash m h = dget m.height_to_hash h ∧
    (get_hash m h = none ↔ dcontains m.height_to_hash h = false) ∧
    (∀ v, get_hash m h = some v → dcontains m.height_to_hash h = true) := by
  have he : get_hash m h = dget m.height_to_hash h := rfl
  refine ⟨rfl, ?_, ?_⟩
  · rw [dcontains_eq_isSome, ← he]
    cases hg : get_hash m h <;> simp
  · intro v hv
    rw [dcontains_eq_isSome, ← he, hv]
    rfl

/-- C6 witness: height 5 is absent from `msample` (NotFound), height 2 is
present. -/
theorem C6_witness :
    (get_hash msample 5 = none ↔ dcontains msample.height_to_hash 5 = false) ∧
    dcontains msample.height_to_hash 2 = true :=
  ⟨(C6_get_hash_not_found msample 5).2.1,
   (C6_get_hash_not_found msample 2).2.2 12 (by decide)⟩

/-- C7: `contains_height h` is true iff `h < lowest_loaded_height` or `h`
is a present key of `height_to_hash`; consequently, on a constructed index
over a chain with peak height `P`, it is true on `[0, P]` and false
above `P`. -/
theorem C7_contains_height_spec :
    (∀ (m : BlockHeightMap) (h : Nat),
      contains_height m h = true ↔
        (h < m.lowest_height ∨ dcontains m.height_to_hash h = true)) ∧
    (∀ (store : Store) (chain : Nat → Row) (P : Nat) (m : BlockHeightMap),
      store.find? (fun r => r.is_peak) = some (chain P) →
      chainSegment store chain 0 P →
      create store = some m →
      (∀ h, h ≤ P → contains_height m h = true) ∧
      (∀ h, P < h → contains_height m h = false)) := by
  constructor
  · intro m h
    unfold contains_height
    by_cases hlt : h < m.lowest_height
    · simp [hlt]
    · simp [hlt]
  · intro store chain P m hpeak hseg hc
    by_cases hP : 1 ≤ P
    · obtain ⟨m2, hc2, hlow, _, hin, hout, _, _⟩ :=
        create_spec store chain P hP hpeak hseg
      rw [hc] at hc2
      injection hc2 with he
      subst he
      have h0 : ∀ h : Nat, ¬(h < m.lowest_height) := by
        intro h
        rw [hlow]
        omega
      constructor
      · intro h hp
        unfold contains_height
        rw [if_neg (h0 h), dcontains_eq_isSome, hin h hp]
        rfl
      · intro h hp
        unfold contains_height
        rw [if_neg (h0 h), dcontains_eq_isSome, hout h hp]
        rfl
    · exfalso
      have hP0 : P = 0 := by omega
      have hz : (chain P).height = 0 :=
        (hseg.1 P (Nat.zero_le P) (le_refl P)).trans hP0
      have := create_none_of_peak_height_zero store (chain P) hpeak hz
      rw [this] at hc
      cases hc

/-- C7 witness: the constructed-index part applied to the 3-block sample
store. -/
theorem C7_witness :
    (wstore.find? (fun r => r.is_peak) = some (wchain 2)) ∧
    chainSegment wstore wchain 0 2 ∧
    create wstore = some wmap ∧
    ((∀ h, h ≤ 2 → contains_height wmap h = true) ∧
     (∀ h, 2 < h → contains_height wmap h = false)) :=
  ⟨by decide, wstore_chainSegment, by decide,
   C7_contains_height_spec.2 wstore wchain 2 wmap (by decide)
     wstore_chainSegment (by decide)⟩

/-- C8 counterexample: over a 2-block chain carrying a summary at every
height, the constructed (hence reachable) index has every hash-bearing
height also carrying a summary, so the summary keys are NOT a *strict*
subset of the hash keys. -/
theorem C8_counterexample :
    Reachable allSesStore allSesMap ∧
    (∀ h, (dget allSesMap.height_to_hash h).isSome = true →
      (dget allSesMap.sub_epoch_summaries h).isSome = true) := by
  constructor
  · exact Reachable.created allSesMap (by decide)
  · intro h hh
    have hcase : h = 1 ∨ h = 0 := by
      by_contra hcon
      push_neg at hcon
      have e1 : (1 : Nat) ≠ h := fun e => hcon.1 e.symm
      have e0 : (0 : Nat) ≠ h := fun e => hcon.2 e.symm
      have hh' : (dget [(1, 11), (0, 10)] h).isSome = true := hh
      simp [dget, e1, e0] at hh'
    rcases hcase with rfl | rfl
    · decide
    · decide

/-- C8 (amended: the inclusion need not be strict): in every state
reachable by construction followed by any sequence of `advance` and
`rollback` operations, every height carrying a summary also has a hash
entry — the summary keys are a subset of the hash keys. -/
theorem C8_ses_keys_subset (store : Store) (m : BlockHeightMap)
    (hr : Reachable store m) : sesKeysSub m := by
  induction hr with
  | created m hc => exact create_sesKeysSub store m hc
  | advanced m m2 height header_hash ses hr2 hu ih =>
    exact update_height_sesKeysSub m m2 height header_hash ses ih hu
  | rolled m k hr2 ih => exact rollback_sesKeysSub m k ih

/-- C8 witness: the amended invariant on the index constructed from the
3-block sample store. -/
theorem C8_witness :
    Reachable wstore wmap ∧ sesKeysSub wmap :=
  ⟨Reachable.created wmap (by decide),
   C8_ses_keys_subset wstore wmap (Reachable.created wmap (by decide))⟩

/-- C9: when the store has no row flagged as peak, construction returns the
empty index — both maps empty, no pending pointer — on which
`contains_height` is false and `get_hash`/`get_ses` fail with NotFound at
every height. -/
theorem C9_create_empty (store : Store)
    (hpeak : store.find? (fun r => r.is_peak) = none) :
    ∃ m, create store = some m ∧
      m.prev_hash = none ∧
      m.height_to_hash = [] ∧
      m.sub_epoch_summaries = [] ∧
      (∀ h, contains_height m h = false) ∧
      (∀ h, get_hash m h = none) ∧
      (∀ h, get_ses m h = none) := by
  refine ⟨{ prev_hash := none, lowest_height := 0
            height_to_hash := [], sub_epoch_summaries := [] },
    ?_, rfl, rfl, rfl, ?_, fun h => rfl, fun h => rfl⟩
  · simp only [create, hpeak]
  · intro h
    unfold contains_height
    rw [if_neg (Nat.not_lt_zero h)]
    rfl

/-- C9 witness: a store holding a single non-peak row. -/
theorem C9_witness :
    ([wr0].find? (fun r => r.is_peak) = none) ∧
    (∃ m, create [wr0] = some m ∧
      m.prev_hash = none ∧
      m.height_to_hash = [] ∧
      m.sub_epoch_summaries = [] ∧
      (∀ h, contains_height m h = false) ∧
      (∀ h, get_hash m h = none) ∧
      (∀ h, get_ses m h = none)) :=
  ⟨by decide, C9_create_empty [wr0] (by decide)⟩

/-- C10: two successive rollbacks equal a single rollback at the lower fork
height; in particular `rollback` is idempotent. -/
theorem C10_rollback_min (m : BlockHeightMap) (k1 k2 : Int) :
    rollback (rollback m k1) k2 = rollback m (min k1 k2) ∧
    rollback (rollback m k1) k1 = rollback m k1 := by
  have hmin : ∀ j1 j2 : Int,
      rollback (rollback m j1) j2 = rollback m (min j1 j2) := by
    intro j1 j2
    show BlockHeightMap.mk m.prev_hash m.lowest_height m.height_to_hash
        ((m.sub_epoch_summaries.filter (fun p => !decide ((p.1 : Int) > j1))).filter
          (fun p => !decide ((p.1 : Int) > j2)))
      = BlockHeightMap.mk m.prev_hash m.lowest_height m.height_to_hash
        (m.sub_epoch_summaries.filter (fun p => !decide ((p.1 : Int) > min j1 j2)))
    rw [filter_gt_min]
  refine ⟨hmin k1 k2, ?_⟩
  rw [hmin k1 k1, min_self]

end BlockHeightMapModel
